import Mathlib

/-
Shallow embedding of the Session & Memory Orchestration Subsystem of the
AI-Agents repository: the LRU cache and enhanced memory manager
(src/shared/enhanced_memory.py), the session registry
(src/shared/session_manager.py), the asynchronous event logger
(src/shared/async_logger.py) and the task state tracker
(src/shared/state_tracker.py).

Modelling conventions used throughout:
- Python dicts (including OrderedDict) are association lists
  `List (String × α)`; assignment keeps the position of an existing key and
  appends a fresh one, which is exactly the insertion-order semantics of
  Python 3.7+ dicts.
- Python float scores are idealised as rationals, ISO-8601 timestamps as
  integers (ISO strings compare lexicographically exactly as the instants
  they denote compare numerically).
- Optional string arguments that the source tests with Python truthiness
  (`if category:`) are `Option String`, with `none` standing for the two
  falsy values, `None` and the empty string.
- Filesystem side effects are dropped where no claim depends on them, or
  abstracted by an explicit success oracle passed as an argument.
- Opaque payloads (JSON-like dict values the subsystem never inspects) are
  a type parameter of the embedding.
-/

namespace AIAgents

/-- Python `dict.get`: the value stored at key `k`, if any. -/
def alGet (l : List (String × α)) (k : String) : Option α :=
  match l with
  | [] => none
  | (k₁, v) :: t => if k₁ = k then some v else alGet t k

/-- Python dict assignment `d[k] = v`: replace in place if the key exists,
append otherwise (insertion-order semantics of Python dicts). -/
def alSet (l : List (String × α)) (k : String) (v : α) : List (String × α) :=
  match l with
  | [] => [(k, v)]
  | (k₁, v₁) :: t => if k₁ = k then (k₁, v) :: t else (k₁, v₁) :: alSet t k v

/-- Removal of the first binding of key `k` (used to model
`OrderedDict.move_to_end`, which unlinks and re-appends the entry). -/
def alErase (l : List (String × α)) (k : String) : List (String × α) :=
  match l with
  | [] => []
  | (k₁, v₁) :: t => if k₁ = k then t else (k₁, v₁) :: alErase t k

/-- In-place mutation of the value object stored under key `k`, as performed
by Python code that mutates `d[k]` without rebinding it. -/
def alUpdate (l : List (String × α)) (k : String) (f : α → α) :
    List (String × α) :=
  l.map fun p => if p.1 = k then (p.1, f p.2) else p

/-- Python list slicing `l[:n]` for an `int` bound: a nonnegative bound keeps
the first `n` elements, a negative bound drops the last `-n`. -/
def pySlice (l : List α) (n : Int) : List α :=
  if 0 ≤ n then l.take n.toNat else l.take (l.length - n.natAbs)

/-- Helper for `pySplit`: walk the characters, accumulating the current
word in reverse; whitespace closes the current word, so no empty pieces are
produced. -/
def pySplitChars : List Char → List Char → List String
  | [], acc => if acc = [] then [] else [String.mk acc.reverse]
  | c :: rest, acc =>
    if c.isWhitespace then
      if acc = [] then pySplitChars rest []
      else String.mk acc.reverse :: pySplitChars rest []
    else pySplitChars rest (c :: acc)

/-- Python `str.split()` with no separator: split on whitespace runs and
drop the empty pieces (written by structural recursion on the character
list so it computes inside the kernel). -/
def pySplit (s : String) : List String :=
  pySplitChars s.toList []

/-- Python `str.lower()`: character-wise lowercasing (written on the
character list so it computes inside the kernel; `String.toLower` in the
library is extensionally the same map). -/
def pyLower (s : String) : String :=
  String.mk (s.toList.map Char.toLower)

/-- Cardinality of `set(a) ∩ set(b)` for two Python lists of strings. -/
def interCard (a b : List String) : Nat :=
  (a.dedup.filter (fun x => b.contains x)).length

theorem alGet_append (l₁ l₂ : List (String × α)) (k : String) :
    alGet (l₁ ++ l₂) k = (alGet l₁ k).orElse (fun _ => alGet l₂ k) := by
  induction l₁ with
  | nil => simp [alGet]
  | cons p t ih => by_cases h : p.1 = k <;> simp [alGet, h, ih]

theorem alGet_eq_none_iff (l : List (String × α)) (k : String) :
    alGet l k = none ↔ k ∉ l.map Prod.fst := by
  induction l with
  | nil => simp [alGet]
  | cons p t ih =>
    by_cases h : p.1 = k <;> simp [alGet, h, ih] <;> tauto

theorem mem_keys_of_alGet_isSome {l : List (String × α)} {k : String}
    (h : (alGet l k).isSome) : k ∈ l.map Prod.fst := by
  by_contra hk
  rw [← alGet_eq_none_iff] at hk
  simp [hk] at h

theorem alErase_keys_sublist (l : List (String × α)) (k : String) :
    List.Sublist ((alErase l k).map Prod.fst) (l.map Prod.fst) := by
  induction l with
  | nil => simp [alErase]
  | cons p t ih =>
    by_cases h : p.1 = k
    · simpa [alErase, h] using (List.sublist_cons_self p.1 (t.map Prod.fst))
    · simpa [alErase, h] using ih.cons₂ p.1

theorem alGet_alErase_of_nodup {l : List (String × α)} {k : String}
    (h : (l.map Prod.fst).Nodup) : alGet (alErase l k) k = none := by
  induction l with
  | nil => simp [alErase, alGet]
  | cons p t ih =>
    simp only [List.map_cons, List.nodup_cons] at h
    by_cases hk : p.1 = k
    · subst hk
      rw [alErase, if_pos rfl, alGet_eq_none_iff]
      exact h.1
    · rw [alErase, if_neg hk, alGet, if_neg hk]
      exact ih h.2

theorem alErase_length_of_mem {l : List (String × α)} {k : String}
    (h : k ∈ l.map Prod.fst) : (alErase l k).length + 1 = l.length := by
  induction l with
  | nil => simp at h
  | cons p t ih =>
    by_cases hk : p.1 = k
    · simp [alErase, hk]
    · simp only [List.map_cons, List.mem_cons] at h
      rcases h with h | h

      · exact absurd h.symm hk
      · simp [alErase, hk, ih h]

theorem alErase_length_le (l : List (String × α)) (k : String) :
    (alErase l k).length ≤ l.length := by
  induction l with
  | nil => simp [alErase]
  | cons p t ih =>
    by_cases hk : p.1 = k <;> simp [alErase, hk] <;> omega

theorem mem_alSet {l : List (String × α)} {k : String} {v : α} {p} :
    p ∈ alSet l k v → p ∈ l ∨ p = (k, v) := by
  induction l with
  | nil => simp [alSet]
  | cons q t ih =>
    by_cases hq : q.1 = k
    · intro h
      simp only [alSet, if_pos hq, List.mem_cons] at h
      rcases h with h | h
      · right; rw [h, ← hq]
      · left; exact List.mem_cons_of_mem q h
    · intro h
      simp only [alSet, if_neg hq, List.mem_cons] at h
      rcases h with h | h
      · left; simp [h]
      · rcases ih h with h | h
        · left; exact List.mem_cons_of_mem q h
        · right; exact h

/-- The `OrderedDict` underlying class `LRUCache` of
`src/shared/enhanced_memory.py`, least-recently-used entry first:
`popitem(last=False)` removes the head and `move_to_end` moves an entry to
the tail. -/
abbrev LRUCache (V : Type) := List (String × V)

namespace LRUCache

/-- Method `LRUCache.get`: a miss returns `None` and leaves the cache
unchanged; a hit moves the key to the most-recent end and returns its
value. -/
def get (c : LRUCache V) (k : String) : Option V × LRUCache V :=
  match alGet c k with
  | none => (none, c)
  | some v => (some v, alErase c k ++ [(k, v)])

/-- Method `LRUCache.put` on a cache of capacity `cap`: an existing key is
moved to the most-recent end and its value replaced, a fresh key is
appended; then, if the size exceeds the capacity, the least-recently-used
entry (the head) is evicted. -/
def put (cap : Nat) (c : LRUCache V) (k : String) (v : V) : LRUCache V :=
  let c₁ := if (alGet c k).isSome then alErase c k ++ [(k, v)] else c ++ [(k, v)]
  if cap < c₁.length then c₁.tail else c₁

/-- One cache operation: a `get` (returned value discarded) or a `put`. -/
inductive Op (V : Type) where
  | get (k : String)
  | put (k : String) (v : V)

/-- Effect of one operation on the cache contents. -/
def Op.apply (cap : Nat) (c : LRUCache V) : Op V → LRUCache V
  | .get k => (LRUCache.get c k).2
  | .put k v => LRUCache.put cap c k v

/-- Effect of a sequence of cache operations. -/
def runOps (cap : Nat) (ops : List (Op V)) (c : LRUCache V) : LRUCache V :=
  ops.foldl (Op.apply cap) c

theorem get_length (c : LRUCache V) (k : String) :
    (get c k).2.length = c.length := by
  unfold get
  cases hg : alGet c k with
  | none => rfl
  | some v =>
    have hm : k ∈ c.map Prod.fst := mem_keys_of_alGet_isSome (by simp [hg])
    have := alErase_length_of_mem (l := c) (k := k) hm
    simp
    omega

theorem put_length_le {cap : Nat} {c : LRUCache V} (k : String) (v : V)
    (h : c.length ≤ cap) : (put cap c k v).length ≤ cap := by
  rw [put]
  set c₁ := if (alGet c k).isSome then alErase c k ++ [(k, v)] else c ++ [(k, v)]
    with hc₁
  have hlen : c₁.length ≤ c.length + 1 := by
    rw [hc₁]
    split
    · have := alErase_length_le c k
      simp only [List.length_append, List.length_cons, List.length_nil]
      omega
    · simp
  have htail := List.length_tail c₁
  by_cases hlt : cap < c₁.length
  · rw [if_pos hlt]
    omega
  · rw [if_neg hlt]
    omega

theorem runOps_length_le {cap : Nat} {c : LRUCache V} (ops : List (Op V))
    (h : c.length ≤ cap) : (runOps cap ops c).length ≤ cap := by
  induction ops generalizing c with
  | nil => simpa [runOps]
  | cons op t ih =>
    have hstep : (Op.apply cap c op).length ≤ cap := by
      cases op with
      | get k => rw [Op.apply, get_length]; exact h
      | put k v => exact put_length_le k v h
    simpa [runOps, List.foldl_cons] using ih hstep

theorem put_fresh {cap : Nat} {c : LRUCache V} {k : String} (v : V)
    (hk : k ∉ c.map Prod.fst) (hlen : c.length + 1 ≤ cap) :
    put cap c k v = c ++ [(k, v)] := by
  rw [put]
  have hg : alGet c k = none := (alGet_eq_none_iff c k).mpr hk
  have hns : ¬ (alGet c k).isSome = true := by simp [hg]
  rw [if_neg hns]
  have : ¬ cap < (c ++ [(k, v)]).length := by
    simp only [List.length_append, List.length_cons, List.length_nil]
    omega
  rw [if_neg this]

theorem foldl_put_fresh {cap : Nat} (ps : List (String × V)) (c : LRUCache V)
    (hnd : (c.map Prod.fst ++ ps.map Prod.fst).Nodup)
    (hlen : c.length + ps.length ≤ cap) :
    ps.foldl (fun acc p => put cap acc p.1 p.2) c = c ++ ps := by
  induction ps generalizing c with
  | nil => simp
  | cons p t ih =>
    have hk : p.1 ∉ c.map Prod.fst := by
      intro hmem
      exact (List.disjoint_of_nodup_append hnd) hmem (by simp)
    have h₁ : put cap c p.1 p.2 = c ++ [p] := by
      have := @put_fresh V cap c p.1 p.2 hk
        (by simp only [List.length_cons] at hlen; omega)
      simpa using this
    rw [List.foldl_cons, h₁]
    have hnd₂ : ((c ++ [p]).map Prod.fst ++ t.map Prod.fst).Nodup := by
      simpa [List.append_assoc] using hnd
    have hlen₂ : (c ++ [p]).length + t.length ≤ cap := by
      simp only [List.length_append, List.length_cons, List.length_nil]
      simp only [List.length_cons] at hlen
      omega
    rw [ih (c ++ [p]) hnd₂ hlen₂]
    simp

theorem alGet_tail_none {l : List (String × α)} {k : String}
    (h : alGet l k = none) : alGet l.tail k = none := by
  cases l with
  | nil => simp [alGet]
  | cons p t =>
    rw [alGet] at h
    split at h
    · exact absurd h (by simp)
    · exact h

theorem get_hit {c : LRUCache V} {k : String} {v : V} (h : alGet c k = some v) :
    get c k = (some v, alErase c k ++ [(k, v)]) := by
  rw [get, h]

theorem alGet_promoted_survives {cap : Nat} {c : LRUCache V} {k k' : String}
    {v : V} (v' : V) (hnd : (c.map Prod.fst).Nodup) (hget : alGet c k = some v)
    (hlen : 2 ≤ c.length) (hk' : k' ∉ c.map Prod.fst) :
    alGet (put cap (get c k).2 k' v') k = some v := by
  rw [get_hit hget]
  have hkmem : k ∈ c.map Prod.fst := mem_keys_of_alGet_isSome (by simp [hget])
  have hek : alGet (alErase c k) k = none := alGet_alErase_of_nodup hnd
  have hkk : k ≠ k' := fun h => hk' (h ▸ hkmem)
  have hk'e : alGet (alErase c k) k' = none := by
    rw [alGet_eq_none_iff]
    intro hmem
    exact hk' ((alErase_keys_sublist c k).subset hmem)
  have hc₂ : alGet (alErase c k ++ [(k, v)]) k' = none := by
    rw [alGet_append, hk'e]
    simp [alGet, hkk]
  rw [put]
  have hns : ¬ (alGet (alErase c k ++ [(k, v)]) k').isSome = true := by
    simp [hc₂]
  rw [if_neg hns]
  have hEl : 1 ≤ (alErase c k).length := by
    have := alErase_length_of_mem (l := c) hkmem
    omega
  have hform : alErase c k ++ [(k, v)] ++ [(k', v')]
      = alErase c k ++ [(k, v), (k', v')] := by simp
  have hget₂ : alGet (alErase c k ++ [(k, v), (k', v')]) k = some v := by
    rw [alGet_append, hek]
    simp [alGet]
  have hget₃ : alGet (alErase c k ++ [(k, v), (k', v')]).tail k = some v := by
    cases hE : alErase c k with
    | nil => rw [hE] at hEl; simp at hEl
    | cons q t =>
      have hTn : alGet t k = none := by
        have h₀ := alGet_tail_none (l := alErase c k) (k := k) hek
        rwa [hE] at h₀
      simp only [List.cons_append, List.tail_cons]
      rw [alGet_append, hTn]
      simp [alGet]
  rw [hform]
  split
  · exact hget₃
  · exact hget₂

end LRUCache

/-- C9. For every `LRUCache` with capacity `cap ≥ 1`: (1) after any sequence
of `put`/`get` operations starting from the empty cache, the cache holds at
most `cap` keys; (2) inserting `cap + 1` distinct keys with no intervening
gets evicts exactly the least-recently-used (first-inserted) key and no
other, leaving the later `cap` keys in insertion order; (3) `get` on a
present key returns its stored value and promotes the key to
most-recently-used, so a subsequent insertion of a fresh key over capacity
evicts some other key and the accessed key survives. -/
theorem lru_cache_correct :
    (∀ (V : Type) (cap : Nat) (ops : List (LRUCache.Op V)), 1 ≤ cap →
      (LRUCache.runOps cap ops []).length ≤ cap) ∧
    (∀ (V : Type) (cap : Nat) (ps : List (String × V)), 1 ≤ cap →
      (ps.map Prod.fst).Nodup → ps.length = cap + 1 →
      ps.foldl (fun c p => LRUCache.put cap c p.1 p.2) [] = ps.tail) ∧
    (∀ (V : Type) (cap : Nat) (c : LRUCache V) (k k' : String) (v v' : V),
      1 ≤ cap → (c.map Prod.fst).Nodup → alGet c k = some v → 2 ≤ c.length →
      k' ∉ c.map Prod.fst →
      (LRUCache.get c k).1 = some v ∧
      alGet (LRUCache.put cap (LRUCache.get c k).2 k' v') k = some v) := by
  refine ⟨?_, ?_, ?_⟩
  · intro V cap ops _
    exact LRUCache.runOps_length_le ops (by simp)
  · intro V cap ps _ hnd hlen
    rcases List.eq_nil_or_concat ps with h | ⟨front, last, h⟩
    · subst h
      exact absurd hlen (by simp)
    · subst h
      simp only [List.concat_eq_append] at hnd hlen ⊢
      have hfl : front.length = cap := by
        simp only [List.length_append, List.length_cons, List.length_nil] at hlen
        omega
      rw [List.foldl_append]
      have hfront : front.foldl (fun c p => LRUCache.put cap c p.1 p.2) [] = front :=
        by
          have := @LRUCache.foldl_put_fresh V cap front []
            (by simpa using (List.nodup_append.mp (by simpa using hnd)).1)
            (by simp [hfl])
          simpa using this
      rw [hfront]
      simp only [List.foldl_cons, List.foldl_nil]
      rw [LRUCache.put]
      have hkf : last.1 ∉ front.map Prod.fst := by
        have h₂ := List.nodup_append.mp (by simpa using hnd)
        intro hmem
        exact h₂.2.2 hmem (by simp)
      have hg : alGet front last.1 = none := (alGet_eq_none_iff front last.1).mpr hkf
      have hns : ¬ (alGet front last.1).isSome = true := by simp [hg]
      rw [if_neg hns]
      have hover : cap < (front ++ [last]).length := by simp [hfl]
      rw [if_pos hover]
  · intro V cap c k k' v v' _ hnd hget hlen hk'
    exact ⟨by rw [LRUCache.get_hit hget],
      LRUCache.alGet_promoted_survives v' hnd hget hlen hk'⟩

/-- C9 witness: the three parts of `lru_cache_correct` at concrete inputs, a
capacity-2 cache over `Nat` values. -/
theorem lru_cache_correct_wit :
    (LRUCache.runOps 2 [LRUCache.Op.put "a" 1, LRUCache.Op.put "b" 2,
      LRUCache.Op.get "a", LRUCache.Op.put "c" 3] ([] : LRUCache Nat)).length ≤ 2 ∧
    ([("a", 1), ("b", 2), ("c", 3)] : List (String × Nat)).foldl
      (fun c p => LRUCache.put 2 c p.1 p.2) [] = [("b", 2), ("c", 3)] ∧
    ((LRUCache.get ([("a", 1), ("b", 2)] : LRUCache Nat) "a").1 = some 1 ∧
      alGet (LRUCache.put 2
        (LRUCache.get ([("a", 1), ("b", 2)] : LRUCache Nat) "a").2 "c" 3) "a"
        = some 1) :=
  ⟨lru_cache_correct.1 Nat 2 _ (by decide),
   lru_cache_correct.2.1 Nat 2 _ (by decide) (by decide) (by decide),
   lru_cache_correct.2.2 Nat 2 _ "a" "c" 1 3 (by decide) (by decide) (by decide)
     (by decide) (by decide)⟩

/-- Enum `TaskStatus` of `src/shared/state_tracker.py`. -/
inductive TaskStatus where
  | pending
  | running
  | completed
  | failed
  | skipped
deriving DecidableEq, Repr

/-- One record of the `tasks` dict of `StateTracker`; `V` is the opaque type
of task results. -/
structure TaskInfo (V : Type) where
  id : String
  name : String
  status : TaskStatus
  start_time : Option Int
  end_time : Option Int
  result : Option V
  error : Option String
  retry_count : Nat
deriving DecidableEq

/-- State of class `StateTracker`: the `tasks` dict, the `dependencies` dict
and the `execution_order` list (the `workflow_id`, `current_stage` and
`checkpoint_data` fields play no part in the claims). -/
structure StateTracker (V : Type) where
  tasks : List (String × TaskInfo V)
  dependencies : List (String × List String)
  execution_order : List String
deriving DecidableEq

namespace StateTracker

/-- Method `StateTracker.register_task`: store a fresh pending task record
and its dependency list (Python stores `[]` for a falsy `dependencies`
argument, i.e. for both `None` and `[]`). -/
def registerTask (st : StateTracker V) (id name : String)
    (dependencies : Option (List String)) : StateTracker V :=
  { st with
    tasks := alSet st.tasks id
      ⟨id, name, TaskStatus.pending, none, none, none, none, 0⟩,
    dependencies := alSet st.dependencies id (dependencies.getD []) }

/-- Method `StateTracker.start_task`: if the task is registered, mark it
running, stamp its start time and append it to the execution order; no
dependency check is performed. -/
def startTask (st : StateTracker V) (id : String) (now : Int) : StateTracker V :=
  if (alGet st.tasks id).isSome then
    { st with
      tasks := alUpdate st.tasks id
        (fun t => { t with status := TaskStatus.running, start_time := some now }),
      execution_order := st.execution_order ++ [id] }
  else st

/-- Method `StateTracker.complete_task`. -/
def completeTask (st : StateTracker V) (id : String) (res : V) (now : Int) :
    StateTracker V :=
  if (alGet st.tasks id).isSome then
    { st with
      tasks := alUpdate st.tasks id
        (fun t => { t with status := TaskStatus.completed, end_time := some now,
                           result := some res }) }
  else st

/-- Method `StateTracker.fail_task`. -/
def failTask (st : StateTracker V) (id err : String) (now : Int) :
    StateTracker V :=
  if (alGet st.tasks id).isSome then
    { st with
      tasks := alUpdate st.tasks id
        (fun t => { t with status := TaskStatus.failed, end_time := some now,
                           error := some err }) }
  else st

/-- Method `StateTracker.retry_task`. -/
def retryTask (st : StateTracker V) (id : String) : StateTracker V :=
  if (alGet st.tasks id).isSome then
    { st with
      tasks := alUpdate st.tasks id
        (fun t => { t with retry_count := t.retry_count + 1,
                           status := TaskStatus.pending }) }
  else st

/-- Method `StateTracker.can_execute_task`: false for an unregistered task;
otherwise true iff every listed dependency is registered with status
`completed`. -/
def canExecuteTask (st : StateTracker V) (id : String) : Bool :=
  match alGet st.tasks id with
  | none => false
  | some _ =>
    ((alGet st.dependencies id).getD []).all fun dep =>
      match alGet st.tasks dep with
      | none => false
      | some t => t.status = TaskStatus.completed

/-- Method `StateTracker.get_ready_tasks`: the pending tasks whose
dependencies are all met, in registration order. -/
def getReadyTasks (st : StateTracker V) : List String :=
  (st.tasks.filter fun p =>
    p.2.status = TaskStatus.pending && canExecuteTask st p.1).map Prod.fst

end StateTracker

/-- Reachable tracker state used to refute C2: register `a` with no
dependencies and `b` depending on `a`, then call `start_task("b")` directly,
before `a` has completed. -/
def c2Tracker : StateTracker Unit :=
  StateTracker.startTask
    (StateTracker.registerTask
      (StateTracker.registerTask ⟨[], [], []⟩ "a" "Task A" none)
      "b" "Task B" (some ["a"]))
    "b" 0

/-- C2 counterexample: the claim says no registered task is ever `running`
while `can_execute_task` is false, but `start_task` performs no dependency
check, so after the operation sequence of `c2Tracker` task `b` is running
although `can_execute_task` returns false for it. -/
theorem start_task_unchecked_cex :
    (alGet c2Tracker.tasks "b").map TaskInfo.status = some TaskStatus.running ∧
    StateTracker.canExecuteTask c2Tracker "b" = false := by
  constructor <;> rfl

/-- C2 amended: `can_execute_task` fails closed — it returns false for an
unregistered task and for any task one of whose dependencies is missing or
not completed — and `get_ready_tasks` only offers tasks for which
`can_execute_task` is true; but `start_task` itself does not consult it, so
only tasks started from the ready list are guaranteed to respect
dependencies. -/
theorem can_execute_gating (V : Type) (st : StateTracker V) (id : String) :
    (alGet st.tasks id = none → StateTracker.canExecuteTask st id = false) ∧
    (∀ dep ∈ (alGet st.dependencies id).getD [],
      ¬ (alGet st.tasks dep).map TaskInfo.status = some TaskStatus.completed →
      StateTracker.canExecuteTask st id = false) ∧
    (∀ rid ∈ StateTracker.getReadyTasks st,
      StateTracker.canExecuteTask st rid = true) := by
  refine ⟨?_, ?_, ?_⟩
  · intro h
    rw [StateTracker.canExecuteTask, h]
  · intro dep hdep hne
    rw [StateTracker.canExecuteTask]
    cases hid : alGet st.tasks id with
    | none => rfl
    | some t₀ =>
      refine List.all_eq_false.mpr ⟨dep, hdep, ?_⟩
      cases hd : alGet st.tasks dep with
      | none => simp [hd]
      | some t₁ =>
        have hne₁ : t₁.status ≠ TaskStatus.completed := by
          intro hc
          exact hne (by rw [hd]; simp [hc])
        simp [hd, hne₁]
  · intro rid hrid
    rw [StateTracker.getReadyTasks, List.mem_map] at hrid
    obtain ⟨p, hp, hfst⟩ := hrid
    rw [List.mem_filter] at hp
    have := hp.2
    rw [Bool.and_eq_true] at this
    rw [← hfst]
    exact this.2

/-- C2 amended witness: the gating facts at a concrete tracker in which `b`
depends on the not-yet-completed `a`. -/
theorem can_execute_gating_wit :
    StateTracker.canExecuteTask c2Tracker "b" = false ∧
    StateTracker.canExecuteTask c2Tracker "a" = true :=
  ⟨(can_execute_gating Unit c2Tracker "b").2.1 "a" (by decide) (by decide),
   (can_execute_gating Unit c2Tracker "a").2.2 "a" (by decide)⟩

/-- Dataclass `MemoryEntry` of `src/shared/enhanced_memory.py`; `V` is the
opaque type of stored values, timestamps are integers. -/
structure MemoryEntry (V : Type) where
  key : String
  value : V
  memory_type : String
  agent_id : String
  session_id : Option String
  created_at : Int
  accessed_at : Int
  access_count : Nat
  tags : List String
deriving DecidableEq

/-- In-memory state of `EnhancedMemoryManager`: the nested
`short_term_memory` and `working_memory` dicts (agent id to key to entry),
the flat `shared_memory` dict, the long-term store (the pickled files
reachable through `longterm_index`, keyed by the string `agent_id:key`),
the LRU cache with its configuration, and the `enable_caching` flag. -/
structure MemState (V : Type) where
  short_term : List (String × List (String × MemoryEntry V))
  working : List (String × List (String × MemoryEntry V))
  shared : List (String × MemoryEntry V)
  longterm : List (String × MemoryEntry V)
  cache : LRUCache V
  enable_caching : Bool
  cache_capacity : Nat
deriving DecidableEq

namespace MemState

/-- Cache key `f"{agent_id}:{memory_type}:{key}"` used by store/retrieve. -/
def cacheKey (agent mtype key : String) : String :=
  agent ++ ":" ++ mtype ++ ":" ++ key

/-- Method `EnhancedMemoryManager.store` at time `now` in session `sid`: a
fresh entry (with `access_count = 0` and `accessed_at = created_at = now`)
is placed in the tier selected by `memory_type`, the cache is updated when
caching is enabled, and `True` is returned. (The session-file and pickle
writes are filesystem effects that no claim depends on; in this pure model
the `except` branch returning `False` is unreachable.) -/
def store (st : MemState V) (now : Int) (sid agent key : String) (v : V)
    (mtype : String) (tags : List String) : Bool × MemState V :=
  let entry : MemoryEntry V :=
    ⟨key, v, mtype, agent, some sid, now, now, 0, tags⟩
  let st₁ :=
    if mtype = "short_term" then
      let m := alSet ((alGet st.short_term agent).getD []) key entry
      { st with short_term := alSet st.short_term agent m }
    else if mtype = "long_term" then
      { st with longterm := alSet st.longterm (agent ++ ":" ++ key) entry }
    else if mtype = "working" then
      let m := alSet ((alGet st.working agent).getD []) key entry
      { st with working := alSet st.working agent m }
    else if mtype = "shared" then
      { st with shared := alSet st.shared key entry }
    else st
  let st₂ :=
    if st₁.enable_caching then
      let c := LRUCache.put st₁.cache_capacity st₁.cache (cacheKey agent mtype key) v
      { st₁ with cache := c }
    else st₁
  (true, st₂)

/-- Method `EnhancedMemoryManager.retrieve` at time `now`: the LRU cache is
consulted first when caching is enabled, and a cache hit returns the cached
value at once (reordering the cache, touching nothing else). Otherwise the
tier selected by `memory_type` is searched; on a hit the entry object is
mutated (`accessed_at` refreshed, `access_count` incremented) — which
updates the tier map for the in-process tiers but only a transient
unpickled copy for `long_term` — the cache is back-filled, and the value is
returned. -/
def retrieve (st : MemState V) (now : Int) (agent key mtype : String) :
    Option V × MemState V :=
  let ck := cacheKey agent mtype key
  let cacheHit : Option (V × MemState V) :=
    if st.enable_caching then
      match LRUCache.get st.cache ck with
      | (some v, c₂) => some (v, { st with cache := c₂ })
      | (none, _) => none
    else none
  match cacheHit with
  | some (v, st₂) => (some v, st₂)
  | none =>
    let entry : Option (MemoryEntry V) :=
      if mtype = "short_term" then
        (alGet st.short_term agent).bind fun m => alGet m key
      else if mtype = "long_term" then
        alGet st.longterm (agent ++ ":" ++ key)
      else if mtype = "working" then
        (alGet st.working agent).bind fun m => alGet m key
      else if mtype = "shared" then
        alGet st.shared key
      else none
    match entry with
    | none => (none, st)
    | some e =>
      let e₂ := { e with accessed_at := now, access_count := e.access_count + 1 }
      let st₁ :=
        if mtype = "short_term" then
          let m := alUpdate st.short_term agent fun m => alUpdate m key fun _ => e₂
          { st with short_term := m }
        else if mtype = "working" then
          let m := alUpdate st.working agent fun m => alUpdate m key fun _ => e₂
          { st with working := m }
        else if mtype = "shared" then
          { st with shared := alUpdate st.shared key fun _ => e₂ }
        else st
      let st₂ :=
        if st₁.enable_caching then
          let c := LRUCache.put st₁.cache_capacity st₁.cache ck e.value
          { st₁ with cache := c }
        else st₁
      (some e.value, st₂)

end MemState

/-- Reachable memory state used to refute C3: one `store` into the
short-term tier with caching enabled (which also primes the cache). -/
def c3State : MemState Nat :=
  (MemState.store ⟨[], [], [], [], [], true, 100⟩ 0 "s" "a" "k" 7 "short_term" []).2

/-- C3 counterexample: the claim says every `retrieve` that returns a value
refreshes the matching entry and increments its `access_count` by 1, but a
cache hit returns the cached value without touching the entry: after one
`store` (entry `access_count = 0`, cache primed) a `retrieve` returns the
value while the stored entry keeps `access_count = 0`, not 1. -/
theorem retrieve_cache_hit_cex :
    (MemState.retrieve c3State 1 "a" "k" "short_term").1 = some 7 ∧
    ((alGet ((alGet (MemState.retrieve c3State 1 "a" "k" "short_term").2.short_term
        "a").getD []) "k").map MemoryEntry.access_count = some 0 ∧
      ¬ (alGet ((alGet (MemState.retrieve c3State 1 "a" "k" "short_term").2.short_term
        "a").getD []) "k").map MemoryEntry.access_count = some 1) := by
  refine ⟨by decide, by decide, by decide⟩

/-- C3 amended: `retrieve` consults the LRU cache first; a cache hit returns
the cached value at once and reorders only the cache, leaving every tier
(and thus the matching entry's metadata) untouched. On a cache miss (or
with caching disabled) a short-term backing hit refreshes the entry's
`accessed_at`, increments its `access_count` by 1 in the tier map and
back-fills the cache when caching is enabled; a long-term backing hit
returns the value, but the durable store keeps the entry unchanged, the
metadata update landing on a transient unpickled copy. -/
theorem retrieve_spec (V : Type) (st : MemState V) (now : Int)
    (agent key : String) :
    (∀ (mtype : String) (v : V) (c₂ : LRUCache V), st.enable_caching = true →
      LRUCache.get st.cache (MemState.cacheKey agent mtype key) = (some v, c₂) →
      MemState.retrieve st now agent key mtype = (some v, { st with cache := c₂ })) ∧
    (∀ (m : List (String × MemoryEntry V)) (e : MemoryEntry V),
      (st.enable_caching = true →
        alGet st.cache (MemState.cacheKey agent "short_term" key) = none) →
      alGet st.short_term agent = some m → alGet m key = some e →
      MemState.retrieve st now agent key "short_term" =
        (some e.value,
          let st₁ : MemState V :=
            { st with short_term :=
                alUpdate st.short_term agent fun mm =>
                  alUpdate mm key fun _ =>
                    { e with accessed_at := now,
                             access_count := e.access_count + 1 } }
          if st.enable_caching then
            { st₁ with cache :=
                            LRUCache.put st.cache_capacity st.cache
                              (MemState.cacheKey agent "short_term" key) e.value }
          else st₁)) ∧
    (∀ e : MemoryEntry V,
      (st.enable_caching = true →
        alGet st.cache (MemState.cacheKey agent "long_term" key) = none) →
      alGet st.longterm (agent ++ ":" ++ key) = some e →
      (MemState.retrieve st now agent key "long_term").1 = some e.value ∧
      (MemState.retrieve st now agent key "long_term").2.longterm = st.longterm ∧
      (MemState.retrieve st now agent key "long_term").2.short_term
        = st.short_term) := by
  refine ⟨?_, ?_, ?_⟩
  · intro mtype v c₂ hec hget
    simp [MemState.retrieve, hec, hget]
  · intro m e hmiss hm he
    cases hec : st.enable_caching with
    | true =>
      have hnone : alGet st.cache (MemState.cacheKey agent "short_term" key)
          = none := hmiss hec
      have hgetc : LRUCache.get st.cache
          (MemState.cacheKey agent "short_term" key)
          = (none, st.cache) := by
        rw [LRUCache.get, hnone]
      simp [MemState.retrieve, hec, hgetc, hm, he]
    | false =>
      simp [MemState.retrieve, hec, hm, he]
  · intro e hmiss hl
    cases hec : st.enable_caching with
    | true =>
      have hnone : alGet st.cache (MemState.cacheKey agent "long_term" key)
          = none := hmiss hec
      have hgetc : LRUCache.get st.cache
          (MemState.cacheKey agent "long_term" key)
          = (none, st.cache) := by
        rw [LRUCache.get, hnone]
      refine ⟨?_, ?_, ?_⟩ <;> simp [MemState.retrieve, hec, hgetc, hl]
    | false =>
      refine ⟨?_, ?_, ?_⟩ <;> simp [MemState.retrieve, hec, hl]

/-- Short-term memory state with caching disabled, for the C3 witness. -/
def c3NoCache : MemState Nat :=
  (MemState.store ⟨[], [], [], [], [], false, 100⟩ 0 "s" "a" "k" 7 "short_term" []).2

/-- Long-term memory state with an empty cache, for the C3 witness. -/
def c3Long : MemState Nat :=
  ⟨[], [], [], [("a:k", ⟨"k", 9, "long_term", "a", some "s", 0, 0, 0, []⟩)],
    [], true, 100⟩

/-- C3 amended witness: the three parts of `retrieve_spec` at concrete
states — a cache hit on `c3State`, a caching-disabled short-term hit on
`c3NoCache`, and a cache-miss long-term hit on `c3Long`. -/
theorem retrieve_spec_wit :
    MemState.retrieve c3State 1 "a" "k" "short_term"
      = (some 7, { c3State with cache := [("a:short_term:k", 7)] }) ∧
    MemState.retrieve c3NoCache 1 "a" "k" "short_term"
      = (some 7,
          { c3NoCache with short_term :=
              [("a", [("k", ⟨"k", 7, "short_term", "a", some "s", 0, 1, 1, []⟩)])] }) ∧
    ((MemState.retrieve c3Long 1 "a" "k" "long_term").1 = some 9 ∧
      (MemState.retrieve c3Long 1 "a" "k" "long_term").2.longterm = c3Long.longterm ∧
      (MemState.retrieve c3Long 1 "a" "k" "long_term").2.short_term
        = c3Long.short_term) := by
  refine ⟨?_, ?_, ?_⟩
  · have h := (retrieve_spec Nat c3State 1 "a" "k").1 "short_term" 7
      [("a:short_term:k", 7)] (by decide) (by decide)
    exact h
  · have h := (retrieve_spec Nat c3NoCache 1 "a" "k").2.1
      [("k", ⟨"k", 7, "short_term", "a", some "s", 0, 0, 0, []⟩)]
      ⟨"k", 7, "short_term", "a", some "s", 0, 0, 0, []⟩
      (by decide) (by decide) (by decide)
    exact h
  · exact (retrieve_spec Nat c3Long 1 "a" "k").2.2
      ⟨"k", 9, "long_term", "a", some "s", 0, 0, 0, []⟩
      (by decide) (by decide)

/-- Dataclass `CampaignTemplate` of `src/shared/enhanced_memory.py`; `π` is
the opaque type of the JSON-like payloads (`listing_structure`,
`social_strategy`, `success_metrics`), which the subsystem never inspects. -/
structure CampaignTemplate (π : Type) where
  template_id : String
  product_name : String
  category : String
  quality_score : ℚ
  created_at : Int
  session_id : String
  target_audience : String
  keywords : List String
  listing_structure : π
  social_strategy : π
  success_metrics : π
  tags : List String
deriving DecidableEq

/-- Argument record of one `save_campaign_template` call. -/
structure SaveArgs (π : Type) where
  product_name : String
  category : String
  quality_score : ℚ
  target_audience : String
  keywords : List String
  listing_structure : π
  social_strategy : π
  success_metrics : π
  tags : List String
deriving DecidableEq

/-- Method `EnhancedMemoryManager.save_campaign_template` at time `now` in
session `sid`, acting on the `templates_index` dict: build the template
record and store it under the deterministic id
`md5(product_name:category:session_id)[:16]`, abstracted as the hash
function `mkId`. The detailed JSON file write is a filesystem effect no
claim depends on. Note the method performs no check on `quality_score`. -/
def saveCampaignTemplate (mkId : String → String → String → String)
    (now : Int) (sid : String) (a : SaveArgs π)
    (idx : List (String × CampaignTemplate π)) :
    String × List (String × CampaignTemplate π) :=
  let tid := mkId a.product_name a.category sid
  (tid, alSet idx tid
    ⟨tid, a.product_name, a.category, a.quality_score, now, sid,
      a.target_audience, a.keywords, a.listing_structure, a.social_strategy,
      a.success_metrics, a.tags⟩)

/-- C4 counterexample: the claim says `save_campaign_template` never records
a template whose `quality_score` is below the approval threshold 85, but
the method stores whatever score it is given: saving with score 50 puts a
below-threshold template into the index. -/
theorem save_template_no_threshold_cex :
    ∃ p ∈ (saveCampaignTemplate (fun _ _ _ => "t") 0 "s"
      (⟨"prod", "cat", 50, "aud", [], (), (), (), []⟩ : SaveArgs Unit) []).2,
      p.2.quality_score < 85 := by
  refine ⟨("t", ⟨"t", "prod", "cat", 50, 0, "s", "aud", [], (), (), (), []⟩),
    by decide, by decide⟩

/-- C4 amended: `save_campaign_template` itself enforces no threshold — the
`≥ 85` gate lives in the workflow caller
(`src/workflows/enhanced_campaign_workflow.py`), which only invokes it when
the validation score is at least 85. Consequently, if every call in a
sequence of saves supplies `quality_score ≥ 85` (and the starting index
already satisfies the invariant), every template in the resulting index has
`quality_score ≥ 85`. -/
theorem save_template_threshold (π : Type)
    (mkId : String → String → String → String) (now : Int) (sid : String)
    (calls : List (SaveArgs π)) (idx₀ : List (String × CampaignTemplate π)) :
    (∀ p ∈ idx₀, (85 : ℚ) ≤ p.2.quality_score) →
    (∀ a ∈ calls, (85 : ℚ) ≤ a.quality_score) →
    ∀ p ∈ calls.foldl (fun idx a => (saveCampaignTemplate mkId now sid a idx).2) idx₀,
      (85 : ℚ) ≤ p.2.quality_score := by
  induction calls generalizing idx₀ with
  | nil =>
    intro hidx _
    exact hidx
  | cons a t ih =>
    intro hidx hcalls
    simp only [List.foldl_cons]
    refine ih _ ?_ (fun b hb => hcalls b (List.mem_cons_of_mem a hb))
    intro p hp
    rcases mem_alSet hp with h | h
    · exact hidx p h
    · rw [h]
      exact hcalls a (List.mem_cons_self a t)

/-- C4 amended witness: after a single save with score 90 on an empty
index, the indexed template sits at or above the threshold — the invariant
hypotheses and the membership are discharged at this concrete input. -/
theorem save_template_threshold_wit :
    (85 : ℚ) ≤ (⟨"t", "prod", "cat", 90, 0, "s", "aud", [], (), (), (), []⟩ :
      CampaignTemplate Unit).quality_score :=
  save_template_threshold Unit (fun _ _ _ => "t") 0 "s"
    [(⟨"prod", "cat", 90, "aud", [], (), (), (), []⟩ : SaveArgs Unit)] []
    (by simp) (by decide)
    ("t", ⟨"t", "prod", "cat", 90, 0, "s", "aud", [], (), (), (), []⟩)
    (by decide)

/-- Category clause of the similarity score of
`EnhancedMemoryManager.find_similar_campaigns`, translated from
`if category and template.category.lower() == category.lower()`: 0.4 for a
case-insensitive match, where the falsy query values `None` and `""` are
`none`. Python floats are idealised as exact rationals. -/
def catScore (category : Option String) (t : CampaignTemplate π) : ℚ :=
  match category with
  | some c => if pyLower t.category = pyLower c then 0.4 else 0
  | none => 0

/-- Keyword clause of the similarity score: weight 0.4 on the set overlap
over the larger list length, guarded by both keyword lists being truthy
and the overlap positive. -/
def kwScore (keywords : List String) (t : CampaignTemplate π) : ℚ :=
  if keywords ≠ [] ∧ t.keywords ≠ [] then
    if 0 < interCard keywords t.keywords then
      0.4 * ((interCard keywords t.keywords : ℚ)
        / (max keywords.length t.keywords.length : ℚ))
    else 0
  else 0

/-- Audience clause of the similarity score: weight 0.2 on the
case-insensitive word-set overlap over the larger word-set size, guarded by
both audience strings being truthy and the overlap positive. -/
def audScore (target_audience : String) (t : CampaignTemplate π) : ℚ :=
  if target_audience ≠ "" ∧ t.target_audience ≠ "" then
    if 0 < interCard (pySplit (pyLower target_audience))
        (pySplit (pyLower t.target_audience)) then
      0.2 * ((interCard (pySplit (pyLower target_audience))
          (pySplit (pyLower t.target_audience)) : ℚ)
        / (max (pySplit (pyLower target_audience)).dedup.length
            (pySplit (pyLower t.target_audience)).dedup.length : ℚ))
    else 0
  else 0

/-- Similarity score accumulated by `find_similar_campaigns` for one
template: category, keyword and audience clauses in source order. -/
def similarity (category : Option String) (keywords : List String)
    (target_audience : String) (t : CampaignTemplate π) : ℚ :=
  catScore category t + kwScore keywords t + audScore target_audience t

/-- Similarity as the spec words it, for the refinement comparison: a plain
weighted sum — 0.4 on a case-insensitive category match, 0.4 times keyword
intersection over the larger keyword count, 0.2 times audience word
intersection over the larger word count — with no truthiness or positivity
guards (a division by zero is 0 in `ℚ`, matching the guarded code on empty
inputs). -/
def similaritySpec (category : Option String) (keywords : List String)
    (target_audience : String) (t : CampaignTemplate π) : ℚ :=
  (if category.any (fun c => pyLower t.category == pyLower c) then (0.4 : ℚ) else 0)
    + 0.4 * ((interCard keywords t.keywords : ℚ)
        / (max keywords.length t.keywords.length : ℚ))
    + 0.2 * ((interCard (pySplit (pyLower target_audience))
          (pySplit (pyLower t.target_audience)) : ℚ)
        / (max (pySplit (pyLower target_audience)).dedup.length
            (pySplit (pyLower t.target_audience)).dedup.length : ℚ))

theorem interCard_nil_left (b : List String) : interCard [] b = 0 := by
  simp [interCard]

theorem interCard_nil_right (a : List String) : interCard a [] = 0 := by
  simp [interCard]

theorem pySplit_empty : pySplit "" = [] := by decide

theorem pyLower_empty : pyLower "" = "" := by decide

theorem catScore_eq (category : Option String) (t : CampaignTemplate π) :
    catScore category t
      = (if category.any (fun c => pyLower t.category == pyLower c)
          then (0.4 : ℚ) else 0) := by
  cases category with
  | none => simp [catScore]
  | some c => simp [catScore, beq_iff_eq]

theorem kwScore_eq (keywords : List String) (t : CampaignTemplate π) :
    kwScore keywords t
      = (0.4 : ℚ) * ((interCard keywords t.keywords : ℚ)
          / (max keywords.length t.keywords.length : ℚ)) := by
  rw [kwScore]
  by_cases hk : keywords = []
  · simp [hk, interCard_nil_left]
  · by_cases ht : t.keywords = []
    · simp [ht, interCard_nil_right]
    · rw [if_pos ⟨hk, ht⟩]
      by_cases hov : 0 < interCard keywords t.keywords
      · rw [if_pos hov]
      · rw [if_neg hov]
        have h0 : interCard keywords t.keywords = 0 := by omega
        rw [h0]
        simp

theorem audScore_eq (target_audience : String) (t : CampaignTemplate π) :
    audScore target_audience t
      = (0.2 : ℚ) * ((interCard (pySplit (pyLower target_audience))
            (pySplit (pyLower t.target_audience)) : ℚ)
          / (max (pySplit (pyLower target_audience)).dedup.length
              (pySplit (pyLower t.target_audience)).dedup.length : ℚ)) := by
  rw [audScore]
  by_cases ha : target_audience = ""
  · subst ha
    rw [pyLower_empty, pySplit_empty]
    simp [interCard_nil_left]
  · by_cases hb : t.target_audience = ""
    · rw [hb, pyLower_empty, pySplit_empty]
      simp [interCard_nil_right, ha]
    · rw [if_pos ⟨ha, hb⟩]
      by_cases hov : 0 < interCard (pySplit (pyLower target_audience))
          (pySplit (pyLower t.target_audience))
      · rw [if_pos hov]
      · rw [if_neg hov]
        have h0 : interCard (pySplit (pyLower target_audience))
            (pySplit (pyLower t.target_audience)) = 0 := by omega
        rw [h0]
        simp

theorem similarity_eq_spec (category : Option String) (keywords : List String)
    (target_audience : String) (t : CampaignTemplate π) :
    similarity category keywords target_audience t
      = similaritySpec category keywords target_audience t := by
  rw [similarity, similaritySpec, catScore_eq, kwScore_eq, audScore_eq]

/-- Descending lexicographic comparison on `(similarity, quality_score)`
used by the final `results.sort(key=..., reverse=True)`. -/
def simGE (a b : CampaignTemplate π × ℚ) : Prop :=
  b.2 < a.2 ∨ (b.2 = a.2 ∧ b.1.quality_score ≤ a.1.quality_score)

instance : DecidableRel (simGE (π := π)) := fun a b =>
  decidable_of_iff
    (b.2 < a.2 ∨ (b.2 = a.2 ∧ b.1.quality_score ≤ a.1.quality_score)) Iff.rfl

instance : IsTotal (CampaignTemplate π × ℚ) simGE where
  total a b := by
    rcases lt_trichotomy a.2 b.2 with h | h | h
    · exact Or.inr (Or.inl h)
    · rcases le_total b.1.quality_score a.1.quality_score with hq | hq
      · exact Or.inl (Or.inr ⟨h.symm, hq⟩)
      · exact Or.inr (Or.inr ⟨h, hq⟩)
    · exact Or.inl (Or.inl h)

instance : IsTrans (CampaignTemplate π × ℚ) simGE where
  trans a b c hab hbc := by
    rcases hab with h₁ | ⟨h₁, hq₁⟩
    · rcases hbc with h₂ | ⟨h₂, _⟩
      · exact Or.inl (h₂.trans h₁)
      · exact Or.inl (h₂ ▸ h₁)
    · rcases hbc with h₂ | ⟨h₂, hq₂⟩
      · exact Or.inl (h₁ ▸ h₂)
      · exact Or.inr ⟨h₂.trans h₁, hq₂.trans hq₁⟩

/-- Scoring and filtering loop of `find_similar_campaigns`: templates below
the quality floor are skipped before scoring, templates with similarity 0
are not collected. -/
def scoreTemplates (category : Option String) (keywords : List String)
    (target_audience : String) (minQ : ℚ) (ts : List (CampaignTemplate π)) :
    List (CampaignTemplate π × ℚ) :=
  ts.filterMap fun t =>
    if t.quality_score < minQ then none
    else if 0 < similarity category keywords target_audience t then
      some (t, similarity category keywords target_audience t)
    else none

/-- Method `EnhancedMemoryManager.find_similar_campaigns`: score and filter
the stored templates, sort descending by `(similarity, quality_score)`
(Python `list.sort` is modelled by the stable `insertionSort`), and return
the first `limit` results. -/
def find_similar_campaigns (category : Option String) (keywords : List String)
    (target_audience : String) (minQ : ℚ) (limit : Int)
    (ts : List (CampaignTemplate π)) : List (CampaignTemplate π × ℚ) :=
  pySlice
    (List.insertionSort simGE (scoreTemplates category keywords target_audience minQ ts))
    limit

/-- C1. Every `find_similar_campaigns` result: templates below the quality
floor are excluded, every returned score is exactly the weighted-sum
similarity the spec states (`similaritySpec`), zero-similarity templates
are excluded, and the returned list holds at most `limit` pairs in
descending `(similarity, quality_score)` order. -/
theorem find_similar_campaigns_spec (π : Type) (ts : List (CampaignTemplate π))
    (category : Option String) (keywords : List String)
    (target_audience : String) (minQ : ℚ) (n : Nat) :
    (find_similar_campaigns category keywords target_audience minQ (n : Int) ts).length ≤ n ∧
    (∀ p ∈ find_similar_campaigns category keywords target_audience minQ (n : Int) ts,
      minQ ≤ p.1.quality_score ∧
      p.2 = similaritySpec category keywords target_audience p.1 ∧ 0 < p.2) ∧
    List.Sorted simGE
      (find_similar_campaigns category keywords target_audience minQ (n : Int) ts) := by
  have hslice : find_similar_campaigns category keywords target_audience minQ (n : Int) ts
      = (List.insertionSort simGE
          (scoreTemplates category keywords target_audience minQ ts)).take n := by
    rw [find_similar_campaigns, pySlice, if_pos (Int.natCast_nonneg n)]
    simp
  refine ⟨?_, ?_, ?_⟩
  · rw [hslice]
    exact List.length_take_le n _
  · intro p hp
    rw [hslice] at hp
    have hp₁ := List.mem_of_mem_take hp
    rw [List.mem_insertionSort] at hp₁
    rw [scoreTemplates, List.mem_filterMap] at hp₁
    obtain ⟨t, _, hft⟩ := hp₁
    by_cases hq : t.quality_score < minQ
    · rw [if_pos hq] at hft
      exact absurd hft (by simp)
    · rw [if_neg hq] at hft
      by_cases hs : 0 < similarity category keywords target_audience t
      · rw [if_pos hs] at hft
        have hpt : p = (t, similarity category keywords target_audience t) :=
          (Option.some.injEq _ _).mp hft.symm
        subst hpt
        exact ⟨le_of_not_lt hq,
          similarity_eq_spec category keywords target_audience t, hs⟩
      · rw [if_neg hs] at hft
        exact absurd hft (by simp)
  · rw [hslice]
    exact List.Pairwise.sublist (List.take_sublist _ _)
      (List.sorted_insertionSort simGE _)

theorem alGet_cons (k₁ : String) (v : α) (t : List (String × α)) (k : String) :
    alGet ((k₁, v) :: t) k = if k₁ = k then some v else alGet t k := rfl

theorem alUpdate_cons_self (k : String) (v : α) (t : List (String × α))
    (f : α → α) : alUpdate ((k, v) :: t) k f = (k, f v) :: alUpdate t k f := by
  simp [alUpdate]

theorem alUpdate_cons_other {k₁ k : String} (h : ¬ k₁ = k) (v : α)
    (t : List (String × α)) (f : α → α) :
    alUpdate ((k₁, v) :: t) k f = (k₁, v) :: alUpdate t k f := by
  simp [alUpdate, h]

theorem alGet_alUpdate_self (l : List (String × α)) (k : String) (f : α → α) :
    alGet (alUpdate l k f) k = (alGet l k).map f := by
  induction l with
  | nil => simp [alUpdate, alGet]
  | cons p t ih =>
    obtain ⟨k₁, v⟩ := p
    by_cases h : k₁ = k
    · subst h
      rw [alUpdate_cons_self, alGet_cons, alGet_cons, if_pos rfl, if_pos rfl]
      rfl
    · rw [alUpdate_cons_other h, alGet_cons, alGet_cons, if_neg h, if_neg h]
      exact ih

theorem alGet_alUpdate_other (l : List (String × α)) (k k₂ : String)
    (f : α → α) (h : k₂ ≠ k) : alGet (alUpdate l k f) k₂ = alGet l k₂ := by
  induction l with
  | nil => simp [alUpdate, alGet]
  | cons p t ih =>
    obtain ⟨k₁, v⟩ := p
    by_cases hp : k₁ = k
    · subst hp
      have hne : ¬ (k₁ = k₂) := fun he => h he.symm
      rw [alUpdate_cons_self, alGet_cons, alGet_cons, if_neg hne, if_neg hne]
      exact ih
    · rw [alUpdate_cons_other hp, alGet_cons, alGet_cons]
      by_cases hq : k₁ = k₂
      · rw [if_pos hq, if_pos hq]
      · rw [if_neg hq, if_neg hq]
        exact ih

theorem eq_of_mem_keys_nodup {l : List (String × α)}
    (hnd : (l.map Prod.fst).Nodup) {p q : String × α} (hp : p ∈ l) (hq : q ∈ l)
    (h : p.1 = q.1) : p = q := by
  induction l with
  | nil => simp at hp
  | cons r t ih =>
    simp only [List.map_cons, List.nodup_cons] at hnd
    rcases List.mem_cons.mp hp with hp₁ | hp₁ <;>
      rcases List.mem_cons.mp hq with hq₁ | hq₁
    · rw [hp₁, hq₁]
    · exfalso
      apply hnd.1
      have hrq : r.1 = q.1 := by rw [← hp₁]; exact h
      rw [hrq]
      exact List.mem_map_of_mem Prod.fst hq₁
    · exfalso
      apply hnd.1
      have hrp : r.1 = p.1 := by rw [← hq₁]; exact h.symm
      rw [hrp]
      exact List.mem_map_of_mem Prod.fst hp₁
    · exact ih hnd.2 hp₁ hq₁

theorem alGet_of_mem_nodup {l : List (String × α)}
    (hnd : (l.map Prod.fst).Nodup) {p : String × α} (hp : p ∈ l) :
    alGet l p.1 = some p.2 := by
  induction l with
  | nil => simp at hp
  | cons r t ih =>
    simp only [List.map_cons, List.nodup_cons] at hnd
    rcases List.mem_cons.mp hp with h | h
    · rw [h, alGet, if_pos rfl]
    · rw [alGet]
      have hne : r.1 ≠ p.1 := by
        intro he
        apply hnd.1
        rw [he]
        exact List.mem_map_of_mem Prod.fst h
      rw [if_neg hne]
      exact ih hnd.2 h

/-- Dataclass `SessionMetadata` of `src/shared/session_manager.py`;
ISO-8601 timestamps are idealised as integers. -/
structure SessionMetadata where
  session_id : String
  created_at : Int
  status : String
  product_name : Option String
  workflow_type : String
  duration_seconds : ℚ
  agent_count : Int
  error_count : Int
  quality_score : Option ℚ
  completed_at : Option Int
  archived_at : Option Int
deriving DecidableEq

/-- Field mutations performed by `SessionManager.update_session` on a found
metadata record: the status test uses Python truthiness (`none` covers
`None` and `""`), the remaining fields use `is not None` (plain `Option`),
and setting status to completed or failed also stamps `completed_at`. -/
def applySessionUpdate (now : Int) (status : Option String)
    (duration : Option ℚ) (agent_count error_count : Option Int)
    (quality_score : Option ℚ) (m : SessionMetadata) : SessionMetadata :=
  let m₁ :=
    match status with
    | some s =>
      { m with status := s,
               completed_at :=
                 if s = "completed" ∨ s = "failed" then some now
                 else m.completed_at }
    | none => m
  let m₂ :=
    match duration with
    | some d => { m₁ with duration_seconds := d }
    | none => m₁
  let m₃ :=
    match agent_count with
    | some a => { m₂ with agent_count := a }
    | none => m₂
  let m₄ :=
    match error_count with
    | some e => { m₃ with error_count := e }
    | none => m₃
  match quality_score with
  | some q => { m₄ with quality_score := some q }
  | none => m₄

/-- Method `SessionManager.update_session` acting on the `sessions_index`
dict: return unchanged (silent no-op) when the session id is unknown,
otherwise mutate the indexed record in place. The manifest and index file
writes are filesystem effects no claim depends on. -/
def update_session (now : Int) (id : String) (status : Option String)
    (duration : Option ℚ) (agent_count error_count : Option Int)
    (quality_score : Option ℚ) (idx : List (String × SessionMetadata)) :
    List (String × SessionMetadata) :=
  match alGet idx id with
  | none => idx
  | some _ =>
    alUpdate idx id
      (applySessionUpdate now status duration agent_count error_count quality_score)

/-- C6. `update_session` on an unknown session id is an atomic no-op; on a
known id exactly the supplied non-absent fields change, all other fields
and all other sessions are untouched, and setting status to completed or
failed additionally stamps `completed_at` with the current time. -/
theorem update_session_spec (now : Int) (id : String) (status : Option String)
    (duration : Option ℚ) (agent_count error_count : Option Int)
    (quality_score : Option ℚ) (idx : List (String × SessionMetadata)) :
    (alGet idx id = none →
      update_session now id status duration agent_count error_count
        quality_score idx = idx) ∧
    (∀ k, k ≠ id →
      alGet (update_session now id status duration agent_count error_count
        quality_score idx) k = alGet idx k) ∧
    (∀ m, alGet idx id = some m →
      alGet (update_session now id status duration agent_count error_count
          quality_score idx) id
        = some (applySessionUpdate now status duration agent_count error_count
            quality_score m) ∧
      ∀ m₂, m₂ = applySessionUpdate now status duration agent_count error_count
          quality_score m →
        m₂.status = status.getD m.status ∧
        m₂.completed_at = (match status with
          | some s => if s = "completed" ∨ s = "failed" then some now
                      else m.completed_at
          | none => m.completed_at) ∧
        m₂.duration_seconds = duration.getD m.duration_seconds ∧
        m₂.agent_count = agent_count.getD m.agent_count ∧
        m₂.error_count = error_count.getD m.error_count ∧
        m₂.quality_score = (match quality_score with
          | some q => some q
          | none => m.quality_score) ∧
        m₂.session_id = m.session_id ∧
        m₂.created_at = m.created_at ∧
        m₂.product_name = m.product_name ∧
        m₂.workflow_type = m.workflow_type ∧
        m₂.archived_at = m.archived_at) := by
  refine ⟨?_, ?_, ?_⟩
  · intro h
    rw [update_session, h]
  · intro k hk
    rw [update_session]
    cases h : alGet idx id with
    | none => rfl
    | some m => exact alGet_alUpdate_other idx id k _ hk
  · intro m hm
    constructor
    · rw [update_session, hm, alGet_alUpdate_self, hm]
      rfl
    · intro m₂ hm₂
      subst hm₂
      cases status <;> cases duration <;> cases agent_count <;>
        cases error_count <;> cases quality_score <;>
        simp [applySessionUpdate]

/-- C6 witness: `update_session_spec` applied to a concrete index — a no-op
on an unknown id, and a partial update (status `completed` with a quality
score, duration absent) on a known id. -/
theorem update_session_spec_wit :
    (update_session 5 "missing" (some "completed") none none none none
      [("a", ⟨"a", 0, "running", none, "amazon_campaign", 0, 0, 0, none,
        none, none⟩)] = [("a", ⟨"a", 0, "running", none, "amazon_campaign",
        0, 0, 0, none, none, none⟩)]) ∧
    (alGet (update_session 5 "a" (some "completed") none (some 3) none
        (some 90) [("a", ⟨"a", 0, "running", none, "amazon_campaign", 0, 0,
          0, none, none, none⟩)]) "a"
      = some ⟨"a", 0, "completed", none, "amazon_campaign", 0, 3, 0,
          some 90, some 5, none⟩) := by
  constructor
  · exact (update_session_spec 5 "missing" (some "completed") none none none
      none _).1 (by decide)
  · have h := ((update_session_spec 5 "a" (some "completed") none (some 3)
      none (some 90) [("a", ⟨"a", 0, "running", none, "amazon_campaign", 0,
        0, 0, none, none, none⟩)]).2.2
      ⟨"a", 0, "running", none, "amazon_campaign", 0, 0, 0, none, none, none⟩
      (by decide)).1
    rw [h]
    decide

/-- Selection test of `cleanup_old_sessions`: created before the cutoff
(`now - retention_days`) and status completed or failed, in source order. -/
def session_eligible (cutoff : Int) (m : SessionMetadata) : Bool :=
  decide (m.created_at < cutoff)
    && (m.status == "completed" || m.status == "failed")

/-- Metadata marking done by a successful `_archive_session`: status becomes
`archived` and `archived_at` is stamped. -/
def archiveMark (now : Int) (m : SessionMetadata) : SessionMetadata :=
  { m with status := "archived", archived_at := some now }

/-- Method `SessionManager.cleanup_old_sessions`: collect the eligible
session ids, then try to archive each in turn, counting successes. The
filesystem part of `_archive_session` (make the zip, remove the live
directory) is abstracted by the success oracle `ok`; on failure the
exception is caught, the metadata is left untouched and the sweep
continues with the next session. -/
def cleanup_old_sessions (ok : String → Bool) (cutoff now : Int)
    (idx : List (String × SessionMetadata)) :
    Nat × List (String × SessionMetadata) :=
  ((idx.filter fun p => session_eligible cutoff p.2).map Prod.fst).foldl
    (fun acc sid =>
      if ok sid then (acc.1 + 1, alUpdate acc.2 sid (archiveMark now))
      else acc)
    (0, idx)

theorem archiveMark_idem (now : Int) (m : SessionMetadata) :
    archiveMark now (archiveMark now m) = archiveMark now m := rfl

theorem map_update_fuse (ok : String → Bool) (now : Int) (sid : String)
    (hok : ok sid = true) (rest : List String)
    (idx : List (String × SessionMetadata)) :
    (alUpdate idx sid (archiveMark now)).map
      (fun q => if rest.contains q.1 && ok q.1 then (q.1, archiveMark now q.2) else q)
    = idx.map
      (fun q => if (sid :: rest).contains q.1 && ok q.1
        then (q.1, archiveMark now q.2) else q) := by
  induction idx with
  | nil => rfl
  | cons p t ih =>
    obtain ⟨k, m⟩ := p
    by_cases hps : k = sid
    · subst hps
      rw [alUpdate_cons_self]
      simp only [List.map_cons, ih]
      congr 1
      by_cases hr : k ∈ rest
      · simp [hr, hok, archiveMark_idem]
      · simp [hr, hok]
    · rw [alUpdate_cons_other hps]
      simp only [List.map_cons, ih]
      congr 1
      simp [hps]

theorem map_skip_fuse (ok : String → Bool) (now : Int) (sid : String)
    (hok : ok sid = false) (rest : List String)
    (idx : List (String × SessionMetadata)) :
    idx.map
      (fun q => if rest.contains q.1 && ok q.1 then (q.1, archiveMark now q.2) else q)
    = idx.map
      (fun q => if (sid :: rest).contains q.1 && ok q.1
        then (q.1, archiveMark now q.2) else q) := by
  induction idx with
  | nil => rfl
  | cons p t ih =>
    obtain ⟨k, m⟩ := p
    simp only [List.map_cons, ih]
    congr 1
    by_cases hps : k = sid
    · subst hps
      simp [hok]
    · simp [hps]

theorem foldl_archive (ok : String → Bool) (now : Int) (ids : List String)
    (n : Nat) (idx : List (String × SessionMetadata)) :
    ids.foldl
      (fun acc sid =>
        if ok sid then (acc.1 + 1, alUpdate acc.2 sid (archiveMark now))
        else acc)
      (n, idx)
    = (n + ids.countP ok,
       idx.map fun p =>
         if ids.contains p.1 && ok p.1 then (p.1, archiveMark now p.2) else p) := by
  induction ids generalizing n idx with
  | nil => simp
  | cons sid rest ih =>
    rw [List.foldl_cons]
    by_cases hok : ok sid = true
    · rw [if_pos hok,
        show ((n, idx).1 + 1, alUpdate (n, idx).2 sid (archiveMark now))
          = (n + 1, alUpdate idx sid (archiveMark now)) from rfl,
        ih, map_update_fuse ok now sid hok rest idx]
      congr 1
      rw [List.countP_cons]
      simp only [hok, if_pos]
      omega
    · rw [if_neg hok, ih, map_skip_fuse ok now sid (by simpa using hok) rest idx]
      congr 1
      rw [List.countP_cons]
      simp [hok]

/-- C7. `cleanup_old_sessions` archives exactly the sessions whose status is
completed or failed and whose creation time is before the cutoff and whose
archive step succeeds: each such session is marked `archived` with
`archived_at` stamped (independently of failures on other sessions), every
other session is untouched, the count is the number of successful archives,
and a second sweep in which no session has newly aged past retention
(hypothesis `hage`) archives nothing and returns 0. -/
theorem cleanup_sessions_spec (ok : String → Bool)
    (cutoff cutoff₂ now now₂ : Int) (idx : List (String × SessionMetadata))
    (hnd : (idx.map Prod.fst).Nodup)
    (hage : ∀ p ∈ idx, p.2.status = "completed" ∨ p.2.status = "failed" →
      p.2.created_at < cutoff₂ → p.2.created_at < cutoff) :
    (cleanup_old_sessions ok cutoff now idx).1
      = idx.countP (fun p => session_eligible cutoff p.2 && ok p.1) ∧
    (∀ p ∈ idx, session_eligible cutoff p.2 = true → ok p.1 = true →
      alGet (cleanup_old_sessions ok cutoff now idx).2 p.1
        = some (archiveMark now p.2)) ∧
    (∀ p ∈ idx, ¬ (session_eligible cutoff p.2 = true ∧ ok p.1 = true) →
      alGet (cleanup_old_sessions ok cutoff now idx).2 p.1 = some p.2) ∧
    (cleanup_old_sessions ok cutoff₂ now₂
      (cleanup_old_sessions ok cutoff now idx).2).1 = 0 := by
  have hc : cleanup_old_sessions ok cutoff now idx
      = (0 + ((idx.filter fun p => session_eligible cutoff p.2).map Prod.fst).countP ok,
         idx.map fun p =>
           if ((idx.filter fun q => session_eligible cutoff q.2).map Prod.fst).contains p.1
              && ok p.1
           then (p.1, archiveMark now p.2) else p) :=
    foldl_archive ok now _ 0 idx
  have hmem : ∀ p ∈ idx,
      (((idx.filter fun q => session_eligible cutoff q.2).map Prod.fst).contains p.1 = true
        ↔ session_eligible cutoff p.2 = true) := by
    intro p hp
    constructor
    · intro hcon
      have hm : p.1 ∈ (idx.filter fun q => session_eligible cutoff q.2).map Prod.fst :=
        List.mem_of_elem_eq_true hcon
      rw [List.mem_map] at hm
      obtain ⟨q, hq, hq1⟩ := hm
      rw [List.mem_filter] at hq
      have hqp : q = p := eq_of_mem_keys_nodup hnd hq.1 hp hq1
      rw [hqp] at hq
      exact hq.2
    · intro helig
      apply List.elem_eq_true_of_mem
      rw [List.mem_map]
      exact ⟨p, List.mem_filter.mpr ⟨hp, helig⟩, rfl⟩
  have hgfst : ∀ p : String × SessionMetadata,
      (if ((idx.filter fun q => session_eligible cutoff q.2).map Prod.fst).contains p.1
          && ok p.1
        then (p.1, archiveMark now p.2) else p).1 = p.1 := by
    intro p
    split <;> rfl
  have hkeys : ((idx.map fun p =>
      if ((idx.filter fun q => session_eligible cutoff q.2).map Prod.fst).contains p.1
          && ok p.1
      then (p.1, archiveMark now p.2) else p).map Prod.fst) = idx.map Prod.fst := by
    rw [List.map_map]
    exact List.map_congr_left fun p _ => hgfst p
  have hlook : ∀ p ∈ idx,
      alGet (cleanup_old_sessions ok cutoff now idx).2 p.1
        = some (if ((idx.filter fun q => session_eligible cutoff q.2).map Prod.fst).contains p.1
              && ok p.1
            then archiveMark now p.2 else p.2) := by
    intro p hp
    rw [hc]
    have hnd₃ : (((idx.map fun p =>
        if ((idx.filter fun q => session_eligible cutoff q.2).map Prod.fst).contains p.1
            && ok p.1
        then (p.1, archiveMark now p.2) else p).map Prod.fst)).Nodup := by
      rw [hkeys]
      exact hnd
    have hpm := List.mem_map_of_mem (fun p =>
        if ((idx.filter fun q => session_eligible cutoff q.2).map Prod.fst).contains p.1
            && ok p.1
        then (p.1, archiveMark now p.2) else p) hp
    have hval := alGet_of_mem_nodup hnd₃ hpm
    rw [hgfst p] at hval
    have hsnd : (if ((idx.filter fun q => session_eligible cutoff q.2).map Prod.fst).contains p.1
          && ok p.1
        then (p.1, archiveMark now p.2) else p).2
        = (if ((idx.filter fun q => session_eligible cutoff q.2).map Prod.fst).contains p.1
            && ok p.1
          then archiveMark now p.2 else p.2) := by
      split <;> rfl
    rw [hsnd] at hval
    exact hval
  refine ⟨?_, ?_, ?_, ?_⟩
  · rw [hc]
    show 0 + _ = _
    rw [Nat.zero_add, List.countP_map, List.countP_filter]
    have hcomm : ∀ l : List (String × SessionMetadata),
        l.countP (fun p => (ok ∘ Prod.fst) p && session_eligible cutoff p.2)
          = l.countP (fun p => session_eligible cutoff p.2 && ok p.1) := by
      intro l
      induction l with
      | nil => rfl
      | cons q t ih =>
        rw [List.countP_cons, List.countP_cons, ih]
        have hcq : ((ok ∘ Prod.fst) q && session_eligible cutoff q.2)
            = (session_eligible cutoff q.2 && ok q.1) := by
          simp [Function.comp, Bool.and_comm]
        rw [hcq]
    exact hcomm idx
  · intro p hp helig hok₂
    rw [hlook p hp]
    have hcond : (((idx.filter fun q => session_eligible cutoff q.2).map Prod.fst).contains p.1
        && ok p.1) = true := by
      rw [(hmem p hp).mpr helig, hok₂]
      rfl
    rw [if_pos hcond]
  · intro p hp hnot
    rw [hlook p hp]
    have hcond : ¬ ((((idx.filter fun q => session_eligible cutoff q.2).map Prod.fst).contains p.1
        && ok p.1) = true) := by
      intro hcon
      rw [Bool.and_eq_true] at hcon
      exact hnot ⟨(hmem p hp).mp hcon.1, hcon.2⟩
    rw [if_neg hcond]
  · have hmap : (cleanup_old_sessions ok cutoff now idx).2
        = idx.map fun p =>
            if ((idx.filter fun q => session_eligible cutoff q.2).map Prod.fst).contains p.1
                && ok p.1
            then (p.1, archiveMark now p.2) else p := by
      rw [hc]
    have hcnt : (cleanup_old_sessions ok cutoff₂ now₂
        (cleanup_old_sessions ok cutoff now idx).2).1
        = (((cleanup_old_sessions ok cutoff now idx).2.filter
            fun p => session_eligible cutoff₂ p.2).map Prod.fst).countP ok := by
      have h₂ := foldl_archive ok now₂
        (((cleanup_old_sessions ok cutoff now idx).2.filter
          fun p => session_eligible cutoff₂ p.2).map Prod.fst) 0
        (cleanup_old_sessions ok cutoff now idx).2
      rw [show cleanup_old_sessions ok cutoff₂ now₂
          (cleanup_old_sessions ok cutoff now idx).2 = _ from h₂]
      simp
    rw [hcnt, List.countP_eq_zero]
    intro sid hsid
    rw [List.mem_map] at hsid
    obtain ⟨q, hq, hq1⟩ := hsid
    rw [List.mem_filter] at hq
    obtain ⟨hq₂, helig₂⟩ := hq
    rw [hmap, List.mem_map] at hq₂
    obtain ⟨p, hp, hgp⟩ := hq₂
    by_cases hcond : (((idx.filter fun q => session_eligible cutoff q.2).map Prod.fst).contains p.1
        && ok p.1) = true
    · exfalso
      rw [← hgp, if_pos hcond] at helig₂
      simp [session_eligible, archiveMark] at helig₂
    · rw [← hgp, if_neg hcond] at helig₂ hq1
      have helig₁ : session_eligible cutoff p.2 = true := by
        simp only [session_eligible, Bool.and_eq_true, decide_eq_true_eq,
          Bool.or_eq_true, beq_iff_eq] at helig₂ ⊢
        exact ⟨hage p hp helig₂.2 helig₂.1, helig₂.2⟩
      have hcontains := (hmem p hp).mpr helig₁
      have hokf : ok p.1 = false := by
        cases hokb : ok p.1
        · rfl
        · exfalso
          apply hcond
          rw [hcontains, hokb]
          rfl
      rw [← hq1]
      simp [hokf]

/-- Concrete session index for the C7 witness: two old terminated sessions,
of which only `a` will archive successfully. -/
def c7Idx : List (String × SessionMetadata) :=
  [("a", ⟨"a", 0, "completed", none, "amazon_campaign", 0, 0, 0, none, none, none⟩),
   ("b", ⟨"b", 0, "failed", none, "amazon_campaign", 0, 0, 0, none, none, none⟩)]

/-- C7 witness: `cleanup_sessions_spec` at `c7Idx`, with the archive oracle
succeeding only on session `a`, a cutoff both sessions predate, and a
second sweep at the same cutoff. -/
theorem cleanup_sessions_spec_wit :
    (cleanup_old_sessions (fun sid => sid == "a") 10 100 c7Idx).1
      = c7Idx.countP (fun p => session_eligible 10 p.2 && (p.1 == "a")) ∧
    (∀ p ∈ c7Idx, session_eligible 10 p.2 = true → (p.1 == "a") = true →
      alGet (cleanup_old_sessions (fun sid => sid == "a") 10 100 c7Idx).2 p.1
        = some (archiveMark 100 p.2)) ∧
    (∀ p ∈ c7Idx, ¬ (session_eligible 10 p.2 = true ∧ (p.1 == "a") = true) →
      alGet (cleanup_old_sessions (fun sid => sid == "a") 10 100 c7Idx).2 p.1
        = some p.2) ∧
    (cleanup_old_sessions (fun sid => sid == "a") 10 200
      (cleanup_old_sessions (fun sid => sid == "a") 10 100 c7Idx).2).1 = 0 :=
  cleanup_sessions_spec (fun sid => sid == "a") 10 10 100 200 c7Idx
    (by decide) (by decide)

/-- Dataclass `LogEvent` of `src/shared/async_logger.py`; `π` is the opaque
type of the `data` payload, the timestamp is an integer, and `event_id` is
the microsecond-clock string computed by the field default factory, passed
in as `eid`. -/
structure LogEvent (π : Type) where
  timestamp : Int
  session_id : String
  event_type : String
  level : String
  agent_id : Option String
  agent_name : Option String
  message : String
  data : π
  duration_ms : Option ℚ
  parent_event_id : Option String
  event_id : String
deriving DecidableEq

/-- Producer-side state of `AsyncLogger`: the bounded queue with its
`maxsize` (`0` means unbounded, as for Python `Queue`), and the two
counters. `events_logged` is incremented only by the consumer thread. -/
structure LoggerState (π : Type) where
  queue : List (LogEvent π)
  maxsize : Nat
  events_logged : Nat
  events_dropped : Nat
deriving DecidableEq

/-- Python `Queue.put_nowait`: fails (raising `Full`, modelled as `none`)
exactly when the queue is bounded and at capacity; otherwise appends. -/
def putNowait (maxsize : Nat) (q : List α) (e : α) : Option (List α) :=
  if 0 < maxsize ∧ maxsize ≤ q.length then none else some (q ++ [e])

/-- The `LogEvent(...)` construction inside `AsyncLogger.log`. -/
def mkLogEvent (now : Int) (eid sid etype lvl msg : String)
    (aid aname : Option String) (data : π) (dur : Option ℚ)
    (pid : Option String) : LogEvent π :=
  ⟨now, sid, etype, lvl, aid, aname, msg, data, dur, pid, eid⟩

namespace AsyncLogger

/-- Method `AsyncLogger.log`: build the event, try `put_nowait`, on `Full`
(the bare `except`) drop the event and bump the drop counter, and in every
case return the event id. The function is total: it never raises and never
waits for queue space. -/
def log (st : LoggerState π) (now : Int) (eid sid etype lvl msg : String)
    (aid aname : Option String) (data : π) (dur : Option ℚ)
    (pid : Option String) : String × LoggerState π :=
  let event := mkLogEvent now eid sid etype lvl msg aid aname data dur pid
  match putNowait st.maxsize st.queue event with
  | some q => (event.event_id, { st with queue := q })
  | none => (event.event_id, { st with events_dropped := st.events_dropped + 1 })

end AsyncLogger

/-- C5. `AsyncLogger.log` never raises and never blocks (it is a total
function built on `put_nowait`): when the bounded queue is full the event
is dropped and `events_dropped` is incremented by exactly 1, otherwise the
event is appended to the queue; in both cases the event id is returned,
and `maxsize` and `events_logged` are untouched. -/
theorem log_spec (π : Type) (st : LoggerState π) (now : Int)
    (eid sid etype lvl msg : String) (aid aname : Option String) (data : π)
    (dur : Option ℚ) (pid : Option String) :
    (AsyncLogger.log st now eid sid etype lvl msg aid aname data dur pid).1
      = eid ∧
    (0 < st.maxsize → st.maxsize ≤ st.queue.length →
      (AsyncLogger.log st now eid sid etype lvl msg aid aname data dur pid).2.queue
        = st.queue ∧
      (AsyncLogger.log st now eid sid etype lvl msg aid aname data dur
          pid).2.events_dropped
        = st.events_dropped + 1) ∧
    (st.maxsize = 0 ∨ st.queue.length < st.maxsize →
      (AsyncLogger.log st now eid sid etype lvl msg aid aname data dur pid).2.queue
        = st.queue ++ [mkLogEvent now eid sid etype lvl msg aid aname data dur pid] ∧
      (AsyncLogger.log st now eid sid etype lvl msg aid aname data dur
          pid).2.events_dropped
        = st.events_dropped) ∧
    (AsyncLogger.log st now eid sid etype lvl msg aid aname data dur pid).2.maxsize
      = st.maxsize ∧
    (AsyncLogger.log st now eid sid etype lvl msg aid aname data dur
        pid).2.events_logged
      = st.events_logged := by
  by_cases hfull : 0 < st.maxsize ∧ st.maxsize ≤ st.queue.length
  · have hp : ∀ e : LogEvent π, putNowait st.maxsize st.queue e = none :=
      fun e => by rw [putNowait, if_pos hfull]
    refine ⟨?_, ?_, ?_, ?_, ?_⟩
    · simp [AsyncLogger.log, hp, mkLogEvent]
    · intro h₁ h₂
      constructor <;> simp [AsyncLogger.log, hp]
    · intro h
      exfalso
      rcases h with h | h <;> omega
    · simp [AsyncLogger.log, hp]
    · simp [AsyncLogger.log, hp]
  · have hp : ∀ e : LogEvent π, putNowait st.maxsize st.queue e
        = some (st.queue ++ [e]) :=
      fun e => by rw [putNowait, if_neg hfull]
    refine ⟨?_, ?_, ?_, ?_, ?_⟩
    · simp [AsyncLogger.log, hp, mkLogEvent]
    · intro h₁ h₂
      exact absurd ⟨h₁, h₂⟩ hfull
    · intro h
      constructor <;> simp [AsyncLogger.log, hp]
    · simp [AsyncLogger.log, hp]
    · simp [AsyncLogger.log, hp]

/-- C5 witness: `log_spec` at a full queue of capacity 1 (the event drops
and the counter bumps) — the hypotheses of the full-queue branch are
discharged at this concrete state. -/
theorem log_spec_wit :
    ((AsyncLogger.log
        (⟨[mkLogEvent 0 "e0" "s" "t" "INFO" "m" none none () none none], 1, 0, 0⟩ :
          LoggerState Unit)
        1 "e1" "s" "t" "INFO" "m2" none none () none none).2.queue
      = [mkLogEvent 0 "e0" "s" "t" "INFO" "m" none none () none none] ∧
     (AsyncLogger.log
        (⟨[mkLogEvent 0 "e0" "s" "t" "INFO" "m" none none () none none], 1, 0, 0⟩ :
          LoggerState Unit)
        1 "e1" "s" "t" "INFO" "m2" none none () none none).2.events_dropped
      = 0 + 1) :=
  (log_spec Unit ⟨[mkLogEvent 0 "e0" "s" "t" "INFO" "m" none none () none none],
      1, 0, 0⟩ 1 "e1" "s" "t" "INFO" "m2" none none () none none).2.1
    (by decide) (by decide)

/-- A JSON object parsed from one log line, as `read_logs` consumes it:
`dict.get` on the two filter fields (absent field gives `None`), plus the
opaque rest of the object. -/
structure ReadEvent (π : Type) where
  event_type : Option String
  level : Option String
  payload : π
deriving DecidableEq

/-- Filter chain of `read_logs`: a line is kept when, for each supplied
filter (Python truthiness: `none` covers `None` and `""`), the parsed
field equals the filter value (an absent field never matches). -/
def eventMatches (etype lvl : Option String) (e : ReadEvent π) : Bool :=
  (match etype with
   | some s => e.event_type == some s
   | none => true)
  && (match lvl with
      | some s => e.level == some s
      | none => true)

/-- The `if limit and len(events) >= limit: break` test of `read_logs`: a
supplied limit of `0` is falsy and never stops the loop; a nonzero
(possibly negative) `int` stops once the collected count reaches it. -/
def limitReached (limit : Option Int) (n : Nat) : Bool :=
  match limit with
  | some m => ¬ m = 0 && m ≤ (n : Int)
  | none => false

/-- Line-reading loop of `read_logs`: parse each line (a malformed line is
skipped and reading continues), apply the filters, collect, and break once
the limit is reached. -/
def readLoop (parse : String → Option (ReadEvent π)) (etype lvl : Option String)
    (limit : Option Int) : List String → List (ReadEvent π) → List (ReadEvent π)
  | [], acc => acc
  | line :: rest, acc =>
    match parse line with
    | none => readLoop parse etype lvl limit rest acc
    | some e =>
      if eventMatches etype lvl e then
        if limitReached limit (acc ++ [e]).length then acc ++ [e]
        else readLoop parse etype lvl limit rest (acc ++ [e])
      else readLoop parse etype lvl limit rest acc

/-- Method `AsyncLogger.read_logs` after the flush and the choice of log
file (the agent filter selects the agent file): a missing file yields `[]`,
otherwise the loop runs over the file lines. JSON parsing is abstracted by
the `parse` oracle (`none` models a `json.JSONDecodeError`). -/
def read_logs (parse : String → Option (ReadEvent π))
    (file : Option (List String)) (etype lvl : Option String)
    (limit : Option Int) : List (ReadEvent π) :=
  match file with
  | none => []
  | some lines => readLoop parse etype lvl limit lines []

/-- The events of a log file that parse and pass the filters, in file
order. -/
def matchingEvents (parse : String → Option (ReadEvent π))
    (etype lvl : Option String) (lines : List String) : List (ReadEvent π) :=
  (lines.filterMap parse).filter (eventMatches etype lvl)

theorem readLoop_no_limit (parse : String → Option (ReadEvent π))
    (etype lvl : Option String) (limit : Option Int)
    (hlim : ∀ n, limitReached limit n = false) (lines : List String)
    (acc : List (ReadEvent π)) :
    readLoop parse etype lvl limit lines acc
      = acc ++ matchingEvents parse etype lvl lines := by
  induction lines generalizing acc with
  | nil => simp [readLoop, matchingEvents]
  | cons line rest ih =>
    cases hp : parse line with
    | none => simp [readLoop, hp, ih, matchingEvents]
    | some e =>
      by_cases hm : eventMatches etype lvl e = true
      · simp [readLoop, hp, hm, hlim, ih, matchingEvents]
      · simp [readLoop, hp, hm, ih, matchingEvents]

theorem readLoop_limited (parse : String → Option (ReadEvent π))
    (etype lvl : Option String) (M : Nat) (hM : 0 < M) (lines : List String)
    (acc : List (ReadEvent π)) (hacc : acc.length < M) :
    readLoop parse etype lvl (some (M : Int)) lines acc
      = acc ++ (matchingEvents parse etype lvl lines).take (M - acc.length) := by
  induction lines generalizing acc with
  | nil => simp [readLoop, matchingEvents]
  | cons line rest ih =>
    cases hp : parse line with
    | none =>
      simp only [readLoop, hp]
      rw [ih acc hacc]
      simp [matchingEvents, hp]
    | some e =>
      by_cases hm : eventMatches etype lvl e = true
      · simp only [readLoop, hp]
        rw [if_pos hm]
        by_cases hstop : M ≤ acc.length + 1
        · have hreach : limitReached (some (M : Int)) (acc ++ [e]).length = true := by
            simp [limitReached]
            omega
          rw [hreach, if_pos rfl]
          have htake : M - acc.length = 1 := by omega
          simp [matchingEvents, hp, hm, htake]
        · have hreach : limitReached (some (M : Int)) (acc ++ [e]).length = false := by
            simp [limitReached]
            omega
          rw [hreach, if_neg (by simp)]
          rw [ih (acc ++ [e]) (by simp; omega)]
          have htake : M - acc.length = (M - (acc.length + 1)) + 1 := by omega
          rw [htake]
          simp [matchingEvents, hp, hm]
      · simp only [readLoop, hp]
        rw [if_neg hm, ih acc hacc]
        simp [matchingEvents, hp, hm]

/-- C8. `read_logs` on a missing file returns `[]`; with no limit it
returns exactly the parseable, filter-matching events of the file in file
order (malformed lines are skipped, reading continues); with a positive
limit `M + 1` it returns the first `M + 1` of those events. -/
theorem read_logs_spec (π : Type) (parse : String → Option (ReadEvent π))
    (etype lvl : Option String) (lines : List String) :
    (∀ limit, read_logs parse none etype lvl limit = ([] : List (ReadEvent π))) ∧
    read_logs parse (some lines) etype lvl none
      = matchingEvents parse etype lvl lines ∧
    (∀ M : Nat, read_logs parse (some lines) etype lvl (some ((M + 1 : Nat) : Int))
      = (matchingEvents parse etype lvl lines).take (M + 1)) := by
  refine ⟨fun _ => rfl, ?_, ?_⟩
  · rw [read_logs, readLoop_no_limit]
    · simp
    · intro n
      rfl
  · intro M
    rw [read_logs, readLoop_limited parse etype lvl (M + 1) (by omega) lines []
      (by simp)]
    simp

/-- Newest-first comparison used by `list_sessions` (`reverse=True` sort on
`created_at`). -/
instance sessionNewerDecidable :
    DecidableRel (fun a b : SessionMetadata => b.created_at ≤ a.created_at) :=
  fun a b => Int.decLe b.created_at a.created_at

/-- Method `SessionManager.list_sessions`: take the index values, filter by
status when one is supplied (Python truthiness), sort newest first, and
slice only when `limit` is truthy — `None` and `0` both mean no limit. -/
def list_sessions (status : Option String) (limit : Option Int)
    (idx : List (String × SessionMetadata)) : List SessionMetadata :=
  let values := idx.map Prod.snd
  let filtered :=
    match status with
    | some s => values.filter fun m => m.status == s
    | none => values
  let sorted :=
    List.insertionSort (fun a b => b.created_at ≤ a.created_at) filtered
  match limit with
  | some n => if ¬ n = 0 then pySlice sorted n else sorted
  | none => sorted

/-- C10. A limit of `0` passed to `list_sessions` or `read_logs` is falsy,
so it means no limit: `list_sessions` returns every matching session
(the same list as with no limit, a permutation of the filtered values) and
`read_logs` returns every matching event — neither returns an empty
list. -/
theorem zero_limit_no_limit :
    (∀ (status : Option String) (idx : List (String × SessionMetadata)),
      list_sessions status (some 0) idx = list_sessions status none idx ∧
      List.Perm (list_sessions status (some 0) idx)
        (match status with
         | some s => (idx.map Prod.snd).filter fun m => m.status == s
         | none => idx.map Prod.snd)) ∧
    (∀ (π : Type) (parse : String → Option (ReadEvent π))
      (file : Option (List String)) (etype lvl : Option String),
      read_logs parse file etype lvl (some 0)
        = read_logs parse file etype lvl none) ∧
    (∀ (π : Type) (parse : String → Option (ReadEvent π)) (lines : List String)
      (etype lvl : Option String),
      read_logs parse (some lines) etype lvl (some 0)
        = matchingEvents parse etype lvl lines) := by
  have hlim₀ : ∀ n, limitReached (some (0 : Int)) n = false := by
    intro n
    simp [limitReached]
  refine ⟨?_, ?_, ?_⟩
  · intro status idx
    constructor
    · simp [list_sessions]
    · have he : list_sessions status (some 0) idx
          = List.insertionSort (fun a b => b.created_at ≤ a.created_at)
            (match status with
             | some s => (idx.map Prod.snd).filter fun m => m.status == s
             | none => idx.map Prod.snd) := by
        simp [list_sessions]
      rw [he]
      exact List.perm_insertionSort _ _
  · intro π parse file etype lvl
    cases file with
    | none => rfl
    | some lines =>
      rw [read_logs, read_logs, readLoop_no_limit parse etype lvl (some 0) hlim₀,
        readLoop_no_limit parse etype lvl none (fun _ => rfl)]
  · intro π parse lines etype lvl
    rw [read_logs, readLoop_no_limit parse etype lvl (some 0) hlim₀]
    simp

/-- Concrete template for the C1 witness: category and keyword match plus
partial audience overlap against the query below. -/
def c1T1 : CampaignTemplate Unit :=
  ⟨"t1", "p1", "Smart Home", 92, 0, "s1", "tech savvy homeowners",
    ["smart", "home", "hub"], (), (), (), []⟩

/-- Concrete template for the C1 witness: category match and 1-of-3 keyword
overlap. -/
def c1T2 : CampaignTemplate Unit :=
  ⟨"t2", "p2", "smart home", 88, 0, "s2", "busy parents", ["smart"],
    (), (), (), []⟩

/-- Concrete template for the C1 witness: no overlap at all (similarity 0,
so it must be excluded). -/
def c1T3 : CampaignTemplate Unit :=
  ⟨"t3", "p3", "Kitchen", 95, 0, "s3", "chefs", ["knife"], (), (), (), []⟩

/-- Concrete template for the C1 witness: below the quality floor. -/
def c1T4 : CampaignTemplate Unit :=
  ⟨"t4", "p4", "Smart Home", 70, 0, "s4", "anyone", ["smart"], (), (), (), []⟩

section
attribute [local semireducible] Rat.add Rat.mul Rat.inv Rat.ofScientific

/-- C1 witness: `find_similar_campaigns_spec` applied to the four concrete
templates, its membership hypothesis discharged on the top result, whose
score is 0.4 + 0.4 + 0.2 times 2/3, that is 14/15. -/
theorem find_similar_campaigns_spec_wit :
    (80 : ℚ) ≤ c1T1.quality_score ∧
    (14 / 15 : ℚ) = similaritySpec (some "SMART HOME") ["smart", "home", "hub"]
      "tech homeowners" c1T1 ∧
    (0 : ℚ) < (14 / 15 : ℚ) :=
  (find_similar_campaigns_spec Unit [c1T3, c1T2, c1T1, c1T4]
      (some "SMART HOME") ["smart", "home", "hub"] "tech homeowners" 80 5).2.1
    (c1T1, (14 / 15 : ℚ)) (by decide)

end

end AIAgents
